import Mathlib

/-!
Verification of the three-stage pipeline (fetch → extract → analyze) of this
repository: `q3/fetcher/fetch.py`, `q3/processor/process.py`,
`q3/analyzer/analyze.py`.

Texts, file names, URLs and words are modelled as `List Char`.  Python floats
are modelled as exact rationals (`ℚ`); the float operations used by the code
(division of small integers, one multiplication) are modelled by the
corresponding exact operations.  Python's Unicode-aware `\w`, `\s` and
`str.lower()` are modelled at the ASCII level (`Char.isAlphanum`,
`Char.isWhitespace`, `Char.toLower`), which is faithful on the ASCII inputs
used throughout.  Filesystem and network effects are abstracted into explicit
parameters: a directory listing is a `List (List Char)`, a per-item fetch or
read outcome is an oracle function passed to the embedded `main`.
-/

/-- Coerce a Lean string literal to the `List Char` representation used
throughout the development. -/
def str (s : String) : List Char := s.data

/-- Python `str.lower()` (ASCII level): lower-case every character. -/
def toLowerL (s : List Char) : List Char := s.map Char.toLower

/-- A character matched by the `\w` class of `WORD_RE = re.compile(r"\w+")`:
alphanumeric or underscore. -/
def isWordChar (c : Char) : Bool := c.isAlphanum || c == '_'

/-- Helper for `WORD_RE.findall`: scan the text, `cur` is the current
in-progress word (reversed). -/
def wordRunsAux : List Char → List Char → List (List Char)
  | [], cur => if cur = [] then [] else [cur.reverse]
  | c :: cs, cur =>
    if isWordChar c then wordRunsAux cs (c :: cur)
    else if cur = [] then wordRunsAux cs []
    else cur.reverse :: wordRunsAux cs []

/-- `WORD_RE.findall(text)`: the maximal runs of word characters. -/
def wordRuns (s : List Char) : List (List Char) := wordRunsAux s []

/-- `tokenize_words_lower` of `analyze.py`: `WORD_RE.findall(text.lower())`. -/
def tokenize_words_lower (s : List Char) : List (List Char) := wordRuns (toLowerL s)

/-- A sentence-break character of `SENT_SPLIT_RE = re.compile(r"[.!?]+")`. -/
def isSentBreak (c : Char) : Bool := c == '.' || c == '!' || c == '?'

/-- Scanner for `SENT_SPLIT_RE.split`: `inBreak` is true while inside a run of
break characters (a part was already emitted on entering the run), `cur` is
the current part (reversed). -/
def splitBreaksAux : List Char → Bool → List Char → List (List Char)
  | [], inBreak, cur => if inBreak then [[]] else [cur.reverse]
  | c :: cs, inBreak, cur =>
    if isSentBreak c then
      if inBreak then splitBreaksAux cs true []
      else cur.reverse :: splitBreaksAux cs true []
    else splitBreaksAux cs false (c :: cur)

/-- `SENT_SPLIT_RE.split(text)`: split on maximal runs of `.`, `!`, `?`;
parts at the ends may be empty. -/
def splitBreaks (s : List Char) : List (List Char) := splitBreaksAux s false []

/-- Python `str.strip()`: drop leading whitespace. -/
def trimL (s : List Char) : List Char := s.dropWhile Char.isWhitespace

/-- Python `str.strip()`: drop leading and trailing whitespace. -/
def pyStrip (s : List Char) : List Char := ((trimL s).reverse.dropWhile Char.isWhitespace).reverse

/-- `split_sentences` of `analyze.py`: the stripped, non-empty parts of the
sentence split. -/
def split_sentences (s : List Char) : List (List Char) :=
  ((splitBreaks s).map pyStrip).filter (fun p => p ≠ [])

/-- `sentence_count` of `process.py`: the number of parts of the sentence
split whose `strip()` is non-empty. -/
def sentence_count (s : List Char) : Nat :=
  ((splitBreaks s).filter (fun p => pyStrip p ≠ [])).length

/-- `avg_word_length` (identical in `process.py` and `analyze.py`): mean
character length of the words, `0.0` for no words. -/
def avg_word_length (words : List (List Char)) : ℚ :=
  if words.length = 0 then 0
  else ((words.map List.length).sum : ℚ) / (words.length : ℚ)

example : tokenize_words_lower (str "Hello, world_1!") = [str "hello", str "world_1"] := by decide

example : split_sentences (str "Hi there. Bye!  ") = [str "Hi there", str "Bye"] := by decide

example : sentence_count (str "a.b..c") = 3 := by decide

example : avg_word_length [str "ab", str "abcd"] = 3 := by norm_num [avg_word_length, str]

/-! ### Analyze stage (`q3/analyzer/analyze.py`) -/

/-- Lookup in an insertion-ordered association list (the model of a Python
dict whose values are counts). -/
def lookupCount : List (List Char × Nat) → List Char → Option Nat
  | [], _ => none
  | p :: ps, k => if p.1 = k then some p.2 else lookupCount ps k

/-- `increment_count(d, key)`: bump the existing key, or add it with count 1.
A Python dict preserves insertion order, hence the append-at-end. -/
def increment_count (d : List (List Char × Nat)) (key : List Char) : List (List Char × Nat) :=
  match lookupCount d key with
  | some _ => d.map (fun p => if p.1 = key then (p.1, p.2 + 1) else p)
  | none => d ++ [(key, 1)]

/-- The per-document counting loops of `main`: fold `increment_count` over a
token list. -/
def incrementAll (d : List (List Char × Nat)) (ws : List (List Char)) : List (List Char × Nat) :=
  ws.foldl increment_count d

/-- `build_ngrams(words, n)` for `n ≥ 1`: every contiguous window of `n`
words, joined with a single space. -/
def build_ngrams (n : Nat) : List (List Char) → List (List Char)
  | [] => []
  | w :: ws =>
    if n ≤ (w :: ws).length then List.intercalate [' '] ((w :: ws).take n) :: build_ngrams n ws
    else []

/-- `jaccard_similarity(doc1_words, doc2_words)`: intersection size over union
size of the two token sets, `0.0` when the union is empty. -/
def jaccard_similarity (doc1_words doc2_words : List (List Char)) : ℚ :=
  let set1 := doc1_words.toFinset
  let set2 := doc2_words.toFinset
  let inter := set1 ∩ set2
  let uni := set1 ∪ set2
  if 0 < uni.card then (inter.card : ℚ) / (uni.card : ℚ) else 0

/-- Python string `<=` on the ranking tuples: code-point lexicographic order
with a proper prefix ordered first. -/
def lexLe : List Char → List Char → Bool
  | [], _ => true
  | _ :: _, [] => false
  | a :: as, b :: bs => if a < b then true else if b < a then false else lexLe as bs

/-- Strict code-point lexicographic order on words. -/
def lexLt : List Char → List Char → Bool
  | [], [] => false
  | [], _ :: _ => true
  | _ :: _, [] => false
  | a :: as, b :: bs => if a < b then true else if b < a then false else lexLt as bs

/-- The comparison behind `items.sort(key=lambda x: (-x[1], x[0]))`:
descending count, ties by ascending lexicographic term. -/
def rankLE (x y : List Char × Nat) : Bool :=
  if y.2 < x.2 then true else if x.2 < y.2 then false else lexLe x.1 y.1

/-- `rankLE` as a relation, for use with `List.insertionSort`. -/
def RankLE (x y : List Char × Nat) : Prop := rankLE x y = true

instance : DecidableRel RankLE := fun x y => instDecidableEqBool (rankLE x y) true

/-- `lexLe` as a relation on file names, for use with `List.insertionSort`. -/
def NameLE (a b : List Char) : Prop := lexLe a b = true

instance : DecidableRel NameLE := fun a b => instDecidableEqBool (lexLe a b) true

/-- `items.sort(key=lambda x: (-x[1], x[0]))`: Python's sort is a stable
sort, modelled by the (stable) insertion sort. -/
def rankSort (items : List (List Char × Nat)) : List (List Char × Nat) :=
  List.insertionSort RankLE items

/-- `files.sort()` / `raw_files.sort()`: ascending code-point order on names,
modelled by the (stable) insertion sort. -/
def sortNames (l : List (List Char)) : List (List Char) :=
  List.insertionSort NameLE l

/-- One entry of the report's `top_100_words` list. -/
structure WordEntry where
  word : List Char
  count : Nat
  frequency : ℚ
deriving DecidableEq

/-- One entry of the report's `document_similarity` list. -/
structure SimEntry where
  doc1 : List Char
  doc2 : List Char
  similarity : ℚ
deriving DecidableEq

/-- One entry of `top_bigrams` / `top_trigrams`. -/
structure NgramEntry where
  gram : List Char
  count : Nat
deriving DecidableEq

/-- The report's `readability` object. -/
structure Readability where
  avg_sentence_length : ℚ
  avg_word_length : ℚ
  complexity_score : ℚ
deriving DecidableEq

/-- The final report of `analyze.py` (the `processing_timestamp` field is not
modelled; `error` is present only in the missing-directory case). -/
structure Report where
  documents_processed : Nat
  total_words : Nat
  unique_words : Nat
  top_100_words : List WordEntry
  document_similarity : List SimEntry
  top_bigrams : List NgramEntry
  top_trigrams : List NgramEntry
  readability : Readability
  error : Option (List Char)
deriving DecidableEq

/-- The accumulator threaded through the per-document loop of `main`
(lines 125–183 of `analyze.py`). -/
structure DocAcc where
  docs : List (List Char × List (List Char))
  global_freq : List (List Char × Nat)
  total_words : Nat
  total_sentence_count : Nat
  total_sentence_words : Nat
  all_words : List (List Char)
  bigram_freq : List (List Char × Nat)
  trigram_freq : List (List Char × Nat)
deriving DecidableEq

/-- The empty accumulator. -/
def initAcc : DocAcc :=
  ⟨[], [], 0, 0, 0, [], [], []⟩

/-- One iteration of the per-document loop.  `readDoc` abstracts
`read_json` + `obj.get("text", "")`: `none` models an unreadable or
unparsable file, which the loop skips (`continue`) without recording
anything. -/
def stepDoc (readDoc : List Char → Option (List Char)) (acc : DocAcc) (file : List Char) : DocAcc :=
  match readDoc file with
  | none => acc
  | some text =>
    let words := tokenize_words_lower text
    let sents := split_sentences text
    { docs := acc.docs ++ [(file, words)]
      global_freq := incrementAll acc.global_freq words
      total_words := acc.total_words + words.length
      total_sentence_count := acc.total_sentence_count + sents.length
      total_sentence_words :=
        acc.total_sentence_words + (sents.map (fun s => (tokenize_words_lower s).length)).sum
      all_words := acc.all_words ++ words
      bigram_freq := incrementAll acc.bigram_freq (build_ngrams 2 words)
      trigram_freq := incrementAll acc.trigram_freq (build_ngrams 3 words) }

/-- The pairwise-similarity double loop (lines 205–217): one record per
unordered pair `i < j` in scan order. -/
def simPairs : List (List Char × List (List Char)) → List SimEntry
  | [] => []
  | d :: ds => ds.map (fun e => ⟨d.1, e.1, jaccard_similarity d.2 e.2⟩) ++ simPairs ds

/-- Lines 187–203: rank the word items, keep the first 100, and attach the
relative frequency `count / total_words` (0.0 when the corpus is empty). -/
def topWordEntries (items : List (List Char × Nat)) (total : Nat) : List WordEntry :=
  ((rankSort items).take 100).map
    (fun it => ⟨it.1, it.2, if 0 < total then (it.2 : ℚ) / (total : ℚ) else 0⟩)

/-- Lines 219–239: rank an n-gram frequency map and keep the first 50. -/
def topNgramEntries (items : List (List Char × Nat)) : List NgramEntry :=
  ((rankSort items).take 50).map (fun it => ⟨it.1, it.2⟩)

/-- The batch part of `main` of `analyze.py` (lines 125–263): fold the
per-document loop over the (already filtered and sorted) file list, then
assemble the report. -/
def analyzeCore (files : List (List Char)) (readDoc : List Char → Option (List Char)) : Report :=
  let acc := files.foldl (stepDoc readDoc) initAcc
  let asl : ℚ :=
    if 0 < acc.total_sentence_count then
      (acc.total_sentence_words : ℚ) / (acc.total_sentence_count : ℚ)
    else 0
  let awl := avg_word_length acc.all_words
  { documents_processed := acc.docs.length
    total_words := acc.total_words
    unique_words := acc.global_freq.length
    top_100_words := topWordEntries acc.global_freq acc.total_words
    document_similarity := simPairs acc.docs
    top_bigrams := topNgramEntries acc.bigram_freq
    top_trigrams := topNgramEntries acc.trigram_freq
    readability := ⟨asl, awl, asl * awl⟩
    error := none }

/-- `name.lower().endswith(".json")` (line 121). -/
def isJsonName (name : List Char) : Bool :=
  List.isSuffixOf (str ".json") (toLowerL name)

/-- The all-zero report written when the processed directory is missing
(lines 100–115). -/
def zeroReport (err : List Char) : Report :=
  ⟨0, 0, 0, [], [], [], [], ⟨0, 0, 0⟩, some err⟩

/-- `main` of `analyze.py` after the wait loop: `processedDirExists` models
`os.path.exists(PROCESSED_DIR)`, `listing` models `os.listdir`, and the
returned `Nat` is the exit code. -/
def analyzeMain (processedDirExists : Bool) (listing : List (List Char))
    (readDoc : List Char → Option (List Char)) : Report × Nat :=
  if processedDirExists then
    (analyzeCore (sortNames (listing.filter isJsonName)) readDoc, 0)
  else
    (zeroReport (str "Missing processed dir /shared/processed"), 1)

example : build_ngrams 2 [str "a", str "b", str "c"] = [str "a b", str "b c"] := by decide

example :
    (analyzeCore [str "d1.json"] (fun _ => some (str "a a b"))).total_words = 3 := by decide

example :
    (analyzeCore [str "d1.json"] (fun _ => some (str "a a b"))).unique_words = 2 := by decide

/-! ### Extract stage (`q3/processor/process.py`) -/

/-- Python `str.find(sub)`: index of the first occurrence, `none` for `-1`. -/
def findSub (needle : List Char) : List Char → Option Nat
  | [] => if needle = [] then some 0 else none
  | c :: cs =>
    if needle.isPrefixOf (c :: cs) then some 0
    else (findSub needle cs).map (· + 1)

/-- Python `str.find(sub, start)`: first occurrence at or after `start`. -/
def findSubFrom (needle hay : List Char) (start : Nat) : Option Nat :=
  (findSub needle (hay.drop start)).map (· + start)

/-- `pat` occurs in `hay` at index `i`. -/
def occursAt (pat hay : List Char) (i : Nat) : Bool :=
  pat.isPrefixOf (hay.drop i)

theorem findSub_bound {needle hay : List Char} {i : Nat} (hne : needle ≠ [])
    (h : findSub needle hay = some i) : i + needle.length ≤ hay.length := by
  induction hay generalizing i with
  | nil => simp [findSub, hne] at h
  | cons c cs ih =>
    rw [findSub] at h
    split at h
    · rename_i hp
      cases h
      simpa using (List.isPrefixOf_iff_prefix.mp hp).length_le
    · cases hfs : findSub needle cs with
      | none => rw [hfs] at h; simp at h
      | some j =>
        rw [hfs] at h
        simp only [Option.map_some'] at h
        cases h
        have := ih hfs
        simp only [List.length_cons]
        omega

theorem findSubFrom_bound {needle hay : List Char} {s i : Nat} (hne : needle ≠ [])
    (h : findSubFrom needle hay s = some i) :
    s ≤ i ∧ i + needle.length ≤ hay.length := by
  unfold findSubFrom at h
  cases hfs : findSub needle (hay.drop s) with
  | none => rw [hfs] at h; simp at h
  | some j =>
    rw [hfs] at h
    simp only [Option.map_some'] at h
    cases h
    have hb := findSub_bound hne hfs
    rw [List.length_drop] at hb
    have hnl : 0 < needle.length := List.length_pos.mpr hne
    constructor
    · omega
    · omega

/-- `remove_tag_block(html, tag_name)`: repeatedly find the first
case-insensitive `"<" + tag_name`; if a matching `"</" + tag_name + ">"`
follows, replace the whole block by a single space and loop, otherwise
truncate at the opening tag.  The Python `while` loop terminates because each
replacement shortens the string; here that measure justifies the recursion. -/
def removeTagBlock (tag : List Char) (html : List Char) : List Char :=
  match h1 : findSub ('<' :: tag) (toLowerL html) with
  | none => html
  | some start =>
    match h2 : findSubFrom ('<' :: '/' :: (tag ++ ['>'])) (toLowerL html) start with
    | none => html.take start
    | some endPos =>
      removeTagBlock tag (html.take start ++ ' ' :: html.drop (endPos + (tag.length + 3)))
termination_by html.length
decreasing_by
  have hlow : (toLowerL html).length = html.length := by simp [toLowerL]
  have hb1 := findSub_bound (by simp) h1
  have hb2 := findSubFrom_bound (by simp) h2
  rw [hlow] at hb1
  rw [hlow] at hb2
  simp only [List.length_cons, List.length_append, List.length_take, List.length_drop,
    List.length_nil] at hb1 hb2 ⊢
  omega

/-- `TAG_RE.sub(" ", s)` for `TAG_RE = re.compile(r"<[^>]+>")`, written with
explicit fuel (one unit per consumed character, so `s.length` units suffice):
replace every leftmost-first match `<`, one or more non-`>` characters, `>`
by a single space.  The engine matches at a `<` exactly when the next `>` is
not immediately adjacent, and resumes after the consumed match. -/
def tagSubFuel : Nat → List Char → List Char
  | 0, l => l
  | _ + 1, [] => []
  | fuel + 1, c :: rest =>
    if c = '<' then
      match findSub ['>'] rest with
      | some j =>
        if 1 ≤ j then ' ' :: tagSubFuel fuel (rest.drop (j + 1)) else c :: tagSubFuel fuel rest
      | none => c :: rest
    else c :: tagSubFuel fuel rest

/-- `TAG_RE.sub(" ", s)`. -/
def tagSub (s : List Char) : List Char := tagSubFuel s.length s

/-- Scanner for `WS_RE.sub(" ", s)`: `inWs` is true while inside a run of
whitespace (its replacement space was already emitted). -/
def collapseWsAux : List Char → Bool → List Char
  | [], _ => []
  | c :: cs, inWs =>
    if c.isWhitespace then
      if inWs then collapseWsAux cs true else ' ' :: collapseWsAux cs true
    else c :: collapseWsAux cs false

/-- `WS_RE.sub(" ", s)` for `WS_RE = re.compile(r"\s+")`: replace every
maximal run of whitespace by a single space. -/
def collapseWs (s : List Char) : List Char := collapseWsAux s false

/-- The text component of `strip_html` (lines 70–80): remove `script` and
`style` blocks, erase remaining tags, collapse whitespace, strip.  The
`links`/`images` components (regex harvests on the block-stripped string,
lines 74–75) do not feed into the text and are not referenced by any claim,
so they are not modelled. -/
def strip_html_text (html : List Char) : List Char :=
  pyStrip (collapseWs (tagSub (removeTagBlock (str "style") (removeTagBlock (str "script") html))))

/-- `P_TAG_RE.findall` count for `P_TAG_RE = re.compile(r"<[Pp]\b")`: count
occurrences of `<` followed by `p`/`P` at a word boundary. -/
def countPTags : List Char → Nat
  | [] => 0
  | [_] => 0
  | a :: b :: rest =>
    if a == '<' && (b == 'p' || b == 'P') && (match rest with | [] => true | d :: _ => !(isWordChar d)) then
      1 + countPTags rest
    else countPTags (b :: rest)

/-- `count_paragraphs(html_content, extracted_text)` (lines 83–89). -/
def count_paragraphs (html text : List Char) : Nat :=
  if 0 < countPTags html then countPTags html
  else if pyStrip text ≠ [] then 1
  else 0

/-- The `statistics` object of a structured document. -/
structure DocStats where
  word_count : Nat
  sentence_count : Nat
  paragraph_count : Nat
  avg_word_length : ℚ
deriving DecidableEq

/-- A structured document (`process_one_file`'s output dictionary; the
`processed_at` timestamp and the `links`/`images` lists are not modelled —
no claim mentions them). -/
structure PDoc where
  source_file : List Char
  text : List Char
  statistics : DocStats
deriving DecidableEq

/-- `process_one_file` (lines 114–142), with the file's decoded content
passed in (`read_text_file` never fails to decode: it falls back to latin-1
with replacement) and the path already reduced to its base name. -/
def process_one_file (source_file : List Char) (html : List Char) : PDoc :=
  let text := strip_html_text html
  let words := wordRuns text
  ⟨source_file, text,
    ⟨words.length, sentence_count text, count_paragraphs html text, avg_word_length words⟩⟩

example : tagSub (str "<p>Hello world.</p>") = str " Hello world. " := by decide

/-- One entry of the extract manifest's `results` list.  A success entry has
no `error` key and a failure entry has `output_file = None`; absent keys are
modelled as `none`. -/
structure PEntry where
  source_file : List Char
  output_file : Option (List Char)
  status : List Char
  error : Option (List Char)
deriving DecidableEq

/-- The extract manifest (`status` dictionary of `process.py`'s `main`); the
timestamp is not modelled, and `error` is only present in the fatal
missing-directory case. -/
structure PManifest where
  files_processed : Nat
  successful : Nat
  failed : Nat
  results : List PEntry
  error : Option (List Char)
deriving DecidableEq

/-- `fname.rsplit(".", 1)[0] if "." in fname else fname` (lines 191–193). -/
def baseName (fname : List Char) : List Char :=
  if '.' ∈ fname then ((fname.reverse.dropWhile (fun c => c != '.')).tail).reverse
  else fname

/-- `name.lower().endswith(".html")` (line 176). -/
def isHtmlName (name : List Char) : Bool :=
  List.isSuffixOf (str ".html") (toLowerL name)

/-- The manifest entry produced for one raw artifact by the `try`/`except`
body of the per-file loop (lines 196–217).  `readRaw` abstracts the whole
fallible part: reading the raw file (processing itself is pure and cannot
raise).  `.ok html` yields the success entry, `.error e` the failure entry. -/
def processEntry (readRaw : List Char → Except (List Char) (List Char))
    (fname : List Char) : PEntry :=
  match readRaw fname with
  | .ok _ => ⟨fname, some (baseName fname ++ str ".json"), str "success", none⟩
  | .error e => ⟨fname, none, str "failed", some e⟩

/-- The structured document written for one raw artifact, `none` when the
artifact failed (no file is written then). -/
def processOutput (readRaw : List Char → Except (List Char) (List Char))
    (fname : List Char) : Option (List Char × PDoc) :=
  match readRaw fname with
  | .ok html => some (baseName fname ++ str ".json", process_one_file fname html)
  | .error _ => none

/-- The per-file loop of `main` (lines 186–219): returns the manifest
entries, the structured documents written, and the `ok`/`bad` counters. -/
def processLoop (readRaw : List Char → Except (List Char) (List Char)) :
    List (List Char) → List PEntry × List (List Char × PDoc) × Nat × Nat
  | [] => ([], [], 0, 0)
  | f :: fs =>
    let rest := processLoop readRaw fs
    match readRaw f with
    | .ok html =>
      (⟨f, some (baseName f ++ str ".json"), str "success", none⟩ :: rest.1,
        (baseName f ++ str ".json", process_one_file f html) :: rest.2.1,
        rest.2.2.1 + 1, rest.2.2.2)
    | .error e =>
      (⟨f, none, str "failed", some e⟩ :: rest.1, rest.2.1, rest.2.2.1, rest.2.2.2 + 1)

/-- `main` of `process.py` after the wait loop (lines 155–230):
`rawDirExists` models `os.path.exists(RAW_DIR)`, `listing` models
`os.listdir(RAW_DIR)`; returns the manifest, the structured documents
written, and the exit code. -/
def processMain (rawDirExists : Bool) (listing : List (List Char))
    (readRaw : List Char → Except (List Char) (List Char)) :
    PManifest × List (List Char × PDoc) × Nat :=
  if rawDirExists then
    let raw_files := sortNames (listing.filter isHtmlName)
    let out := processLoop readRaw raw_files
    (⟨raw_files.length, out.2.2.1, out.2.2.2, out.1, none⟩, out.2.1, 0)
  else
    (⟨0, 0, 0, [], some (str "Missing raw dir /shared/raw")⟩, [], 1)

/-! ### Fetch stage (`q3/fetcher/fetch.py`) -/

/-- One entry of the fetch manifest's `results` list.  A success entry has no
`error` key and a failure entry has no `size` key; absent keys are modelled
as `none`. -/
structure FetchResult where
  url : List Char
  file : Option (List Char)
  size : Option Nat
  error : Option (List Char)
  status : List Char
deriving DecidableEq

/-- The fetch manifest (`status` dictionary of `fetch.py`; the timestamp is
not modelled). -/
structure FetchManifest where
  urls_processed : Nat
  successful : Nat
  failed : Nat
  results : List FetchResult
deriving DecidableEq

/-- `"page_" + str(page_num) + ".html"` with `page_num = index + 1`. -/
def pageName (index : Nat) : List Char :=
  str "page_" ++ (Nat.repr (index + 1)).data ++ str ".html"

/-- The fetch loop (lines 38–72): one result per URL, in order, with the
1-based page number taken from the position; `net` abstracts
`urllib.request.urlopen` + `read` + the artifact write, returning the
content size or the stringified exception.  Returns the results list and
the success/failure counters. -/
def fetchLoop (net : Nat → List Char → Except (List Char) Nat) :
    Nat → List (List Char) → List FetchResult × Nat × Nat
  | _, [] => ([], 0, 0)
  | index, url :: rest =>
    let out := fetchLoop net (index + 1) rest
    match net index url with
    | .ok size =>
      (⟨url, some (pageName index), some size, none, str "success"⟩ :: out.1,
        out.2.1 + 1, out.2.2)
    | .error e =>
      (⟨url, none, none, some e, str "failed"⟩ :: out.1, out.2.1, out.2.2 + 1)

/-- `main` of `fetch.py` after the wait loop: strip each input line, keep the
non-blank ones (lines 24–29), run the fetch loop, and assemble the manifest
(lines 74–80). -/
def fetchMain (lines : List (List Char)) (net : Nat → List Char → Except (List Char) Nat) :
    FetchManifest :=
  let urls := (lines.map pyStrip).filter (fun l => l ≠ [])
  let out := fetchLoop net 0 urls
  ⟨urls.length, out.2.1, out.2.2, out.1⟩

/-! ### Order lemmas for the ranking comparison -/

theorem lexLe_refl (a : List Char) : lexLe a a = true := by
  induction a with
  | nil => rfl
  | cons x xs ih => simp [lexLe, ih]

theorem lexLe_total (a b : List Char) : lexLe a b = true ∨ lexLe b a = true := by
  induction a generalizing b with
  | nil => left; rfl
  | cons x xs ih =>
    cases b with
    | nil => right; rfl
    | cons y ys =>
      rcases lt_trichotomy x y with hxy | rfl | hxy
      · left; simp [lexLe, hxy]
      · rcases ih ys with h | h
        · left; simp [lexLe, h]
        · right; simp [lexLe, h]
      · right; simp [lexLe, hxy]

theorem lexLe_trans {a b c : List Char} (h1 : lexLe a b = true) (h2 : lexLe b c = true) :
    lexLe a c = true := by
  induction a generalizing b c with
  | nil => rfl
  | cons x xs ih =>
    cases b with
    | nil => simp [lexLe] at h1
    | cons y ys =>
      cases c with
      | nil => simp [lexLe] at h2
      | cons z zs =>
        simp only [lexLe] at h1 h2 ⊢
        rcases lt_trichotomy x y with hxy | rfl | hxy
        · rcases lt_trichotomy y z with hyz | rfl | hyz
          · simp [lt_trans hxy hyz]
          · simp [hxy]
          · simp [not_lt_of_gt hyz, hyz] at h2
        · simp only [lt_irrefl, if_false] at h1
          rcases lt_trichotomy x z with hxz | rfl | hxz
          · simp [hxz]
          · simp only [lt_irrefl, if_false] at h2 ⊢
            exact ih h1 h2
          · simp [not_lt_of_gt hxz, hxz] at h2
        · simp [not_lt_of_gt hxy, hxy] at h1

theorem lexLe_antisymm {a b : List Char} (h1 : lexLe a b = true) (h2 : lexLe b a = true) :
    a = b := by
  induction a generalizing b with
  | nil =>
    cases b with
    | nil => rfl
    | cons y ys => simp [lexLe] at h2
  | cons x xs ih =>
    cases b with
    | nil => simp [lexLe] at h1
    | cons y ys =>
      simp only [lexLe] at h1 h2
      rcases lt_trichotomy x y with hxy | rfl | hxy
      · simp [not_lt_of_gt hxy, hxy] at h2
      · simp only [lt_irrefl, if_false] at h1 h2
        rw [ih h1 h2]
      · simp [not_lt_of_gt hxy, hxy] at h1

theorem lexLt_of_lexLe_of_ne {a b : List Char} (h1 : lexLe a b = true) (h2 : a ≠ b) :
    lexLt a b = true := by
  induction a generalizing b with
  | nil =>
    cases b with
    | nil => exact absurd rfl h2
    | cons y ys => rfl
  | cons x xs ih =>
    cases b with
    | nil => simp [lexLe] at h1
    | cons y ys =>
      simp only [lexLe] at h1
      simp only [lexLt]
      rcases lt_trichotomy x y with hxy | rfl | hxy
      · simp [hxy]
      · simp only [lt_irrefl, if_false] at h1 ⊢
        exact ih h1 (by intro h; exact h2 (by rw [h]))
      · simp [not_lt_of_gt hxy, hxy] at h1

theorem rankLE_iff {x y : List Char × Nat} :
    rankLE x y = true ↔ y.2 < x.2 ∨ (x.2 = y.2 ∧ lexLe x.1 y.1 = true) := by
  unfold rankLE
  split_ifs with h1 h2
  · simp [h1]
  · simp [h1, h2]
    omega
  · simp [h1, h2]
    omega

instance : IsTotal (List Char × Nat) RankLE :=
  ⟨by
    intro x y
    unfold RankLE
    rw [rankLE_iff, rankLE_iff]
    rcases lt_trichotomy x.2 y.2 with h | h | h
    · right; left; exact h
    · rcases lexLe_total x.1 y.1 with hl | hl
      · left; right; exact ⟨h, hl⟩
      · right; right; exact ⟨h.symm, hl⟩
    · left; left; exact h⟩

instance : IsTrans (List Char × Nat) RankLE :=
  ⟨by
    intro x y z h1 h2
    unfold RankLE at h1 h2 ⊢
    rw [rankLE_iff] at h1 h2 ⊢
    rcases h1 with h1 | ⟨h1e, h1l⟩
    · rcases h2 with h2 | ⟨h2e, _⟩
      · left; omega
      · left; omega
    · rcases h2 with h2 | ⟨h2e, h2l⟩
      · left; omega
      · right; exact ⟨by omega, lexLe_trans h1l h2l⟩⟩

instance : IsTotal (List Char) NameLE :=
  ⟨fun a b => lexLe_total a b⟩

instance : IsTrans (List Char) NameLE :=
  ⟨fun _ _ _ h1 h2 => lexLe_trans h1 h2⟩

/-! ### Claim C3 — fetch manifest bookkeeping -/

theorem fetchLoop_spec (net : Nat → List Char → Except (List Char) Nat) (i : Nat)
    (urls : List (List Char)) :
    (fetchLoop net i urls).1.map (fun r => r.url) = urls ∧
    (fetchLoop net i urls).2.1 + (fetchLoop net i urls).2.2 = urls.length ∧
    ∀ r ∈ (fetchLoop net i urls).1, r.status = str "success" ∨ r.status = str "failed" := by
  induction urls generalizing i with
  | nil => simp [fetchLoop]
  | cons u rest ih =>
    obtain ⟨ih1, ih2, ih3⟩ := ih (i + 1)
    cases hn : net i u with
    | ok size =>
      refine ⟨?_, ?_, ?_⟩
      · simp [fetchLoop, hn, ih1]
      · simp only [fetchLoop, hn, List.length_cons]
        omega
      · intro r hr
        simp only [fetchLoop, hn, List.mem_cons] at hr
        rcases hr with rfl | hr
        · left; rfl
        · exact ih3 r hr
    | error e =>
      refine ⟨?_, ?_, ?_⟩
      · simp [fetchLoop, hn, ih1]
      · simp only [fetchLoop, hn, List.length_cons]
        omega
      · intro r hr
        simp only [fetchLoop, hn, List.mem_cons] at hr
        rcases hr with rfl | hr
        · right; rfl
        · exact ih3 r hr

/-- C3: for every non-empty input URL list (the non-blank stripped lines of
the input file), the fetch manifest's `urls_processed` equals the number of
URLs, `successful + failed` equals that same number, and the manifest has
exactly one result record per input URL in order, each marked `success` or
`failed`. -/
theorem C3_fetch_manifest_counts (lines : List (List Char))
    (net : Nat → List Char → Except (List Char) Nat)
    (hne : (lines.map pyStrip).filter (fun l => l ≠ []) ≠ []) :
    (fetchMain lines net).urls_processed =
      ((lines.map pyStrip).filter (fun l => l ≠ [])).length ∧
    (fetchMain lines net).successful + (fetchMain lines net).failed =
      ((lines.map pyStrip).filter (fun l => l ≠ [])).length ∧
    (fetchMain lines net).results.map (fun r => r.url) =
      (lines.map pyStrip).filter (fun l => l ≠ []) ∧
    ∀ r ∈ (fetchMain lines net).results, r.status = str "success" ∨ r.status = str "failed" := by
  obtain ⟨h1, h2, h3⟩ := fetchLoop_spec net 0 ((lines.map pyStrip).filter (fun l => l ≠ []))
  exact ⟨rfl, h2, h1, h3⟩

/-- A concrete network oracle: URL 0 succeeds with 5 bytes, the rest fail. -/
def netEx : Nat → List Char → Except (List Char) Nat :=
  fun i _ => if i = 0 then .ok 5 else .error (str "timeout")

theorem C3_fetch_manifest_counts_witness :
    ([str " u ", str "", str "v"].map pyStrip).filter (fun l => l ≠ []) ≠ [] ∧
    ((fetchMain [str " u ", str "", str "v"] netEx).urls_processed =
        (([str " u ", str "", str "v"].map pyStrip).filter (fun l => l ≠ [])).length ∧
      (fetchMain [str " u ", str "", str "v"] netEx).successful +
          (fetchMain [str " u ", str "", str "v"] netEx).failed =
        (([str " u ", str "", str "v"].map pyStrip).filter (fun l => l ≠ [])).length ∧
      (fetchMain [str " u ", str "", str "v"] netEx).results.map (fun r => r.url) =
        ([str " u ", str "", str "v"].map pyStrip).filter (fun l => l ≠ []) ∧
      ∀ r ∈ (fetchMain [str " u ", str "", str "v"] netEx).results,
        r.status = str "success" ∨ r.status = str "failed") :=
  ⟨by decide, C3_fetch_manifest_counts [str " u ", str "", str "v"] netEx (by decide)⟩

/-! ### Claim C4 — missing raw directory is fatal but still writes a manifest -/

/-- C4: when the raw directory is absent, the extract stage still writes its
manifest, recording an error, zero processed/successful/failed and an empty
results list, writes no documents, and returns a non-zero exit code. -/
theorem C4_missing_raw_dir (listing : List (List Char))
    (readRaw : List Char → Except (List Char) (List Char)) :
    (processMain false listing readRaw).1.error = some (str "Missing raw dir /shared/raw") ∧
    (processMain false listing readRaw).1.files_processed = 0 ∧
    (processMain false listing readRaw).1.successful = 0 ∧
    (processMain false listing readRaw).1.failed = 0 ∧
    (processMain false listing readRaw).1.results = [] ∧
    (processMain false listing readRaw).2.1 = [] ∧
    (processMain false listing readRaw).2.2 ≠ 0 := by
  simp [processMain]

/-! ### Claim C9 — raw directory present but empty of artifacts -/

/-- C9: when the raw directory exists but holds no `.html` artifact, the
manifest reports `files_processed = 0`, `successful = 0`, `failed = 0`, and
the stage exits with code 0. -/
theorem C9_empty_raw_dir (listing : List (List Char))
    (readRaw : List Char → Except (List Char) (List Char))
    (h : listing.filter isHtmlName = []) :
    (processMain true listing readRaw).1.files_processed = 0 ∧
    (processMain true listing readRaw).1.successful = 0 ∧
    (processMain true listing readRaw).1.failed = 0 ∧
    (processMain true listing readRaw).2.2 = 0 := by
  simp [processMain, h, sortNames, List.insertionSort, processLoop]

theorem C9_empty_raw_dir_witness :
    [str "notes.txt"].filter isHtmlName = [] ∧
    ((processMain true [str "notes.txt"] (fun _ => .error (str "unused"))).1.files_processed = 0 ∧
      (processMain true [str "notes.txt"] (fun _ => .error (str "unused"))).1.successful = 0 ∧
      (processMain true [str "notes.txt"] (fun _ => .error (str "unused"))).1.failed = 0 ∧
      (processMain true [str "notes.txt"] (fun _ => .error (str "unused"))).2.2 = 0) :=
  ⟨by decide, C9_empty_raw_dir [str "notes.txt"] (fun _ => .error (str "unused")) (by decide)⟩

/-! ### Claim C2 — one outcome per raw artifact, failures do not stop the batch -/

theorem processLoop_spec (readRaw : List Char → Except (List Char) (List Char))
    (files : List (List Char)) :
    (processLoop readRaw files).1 = files.map (processEntry readRaw) ∧
    (processLoop readRaw files).2.1 = files.filterMap (processOutput readRaw) ∧
    (processLoop readRaw files).2.2.1 + (processLoop readRaw files).2.2.2 = files.length := by
  induction files with
  | nil => simp [processLoop]
  | cons f fs ih =>
    obtain ⟨ih1, ih2, ih3⟩ := ih
    cases hr : readRaw f with
    | ok html =>
      refine ⟨?_, ?_, ?_⟩
      · simp [processLoop, hr, ih1, processEntry]
      · simp [processLoop, hr, ih2, processOutput]
      · simp only [processLoop, hr, List.length_cons]
        omega
    | error e =>
      refine ⟨?_, ?_, ?_⟩
      · simp [processLoop, hr, ih1, processEntry]
      · simp [processLoop, hr, ih2, processOutput]
      · simp only [processLoop, hr, List.length_cons]
        omega

/-- C2: each raw artifact present for the batch yields exactly one manifest
entry, computed from that artifact alone (so one artifact's failure cannot
affect the others), and per artifact either a success entry together with
exactly one written document, or a failure entry and no document — never
both, never neither. -/
theorem C2_extract_one_outcome_per_artifact (listing : List (List Char))
    (readRaw : List Char → Except (List Char) (List Char)) :
    (processMain true listing readRaw).1.results =
      (sortNames (listing.filter isHtmlName)).map (processEntry readRaw) ∧
    (processMain true listing readRaw).2.1 =
      (sortNames (listing.filter isHtmlName)).filterMap (processOutput readRaw) ∧
    ∀ f : List Char,
      ((processEntry readRaw f).status = str "success" ∧
        (processOutput readRaw f).isSome = true) ∨
      ((processEntry readRaw f).status = str "failed" ∧ processOutput readRaw f = none) := by
  obtain ⟨h1, h2, _⟩ := processLoop_spec readRaw (sortNames (listing.filter isHtmlName))
  refine ⟨by simpa [processMain] using h1, by simpa [processMain] using h2, ?_⟩
  intro f
  cases hr : readRaw f with
  | ok html => left; simp [processEntry, processOutput, hr]
  | error e => right; simp [processEntry, processOutput, hr]

/-! ### Claim C5 — algebraic properties of Jaccard similarity -/

/-- C5: Jaccard similarity is symmetric and lies in `[0, 1]`; a document
compared with itself scores 1 when its token set is non-empty and 0 when the
token sets are empty. -/
theorem C5_jaccard_properties (a b : List (List Char)) :
    jaccard_similarity a b = jaccard_similarity b a ∧
    0 ≤ jaccard_similarity a b ∧
    jaccard_similarity a b ≤ 1 ∧
    (a.toFinset ≠ ∅ → jaccard_similarity a a = 1) ∧
    (a.toFinset = ∅ → jaccard_similarity a a = 0) := by
  refine ⟨?_, ?_, ?_, ?_, ?_⟩
  · simp only [jaccard_similarity]
    rw [Finset.inter_comm, Finset.union_comm]
  · simp only [jaccard_similarity]
    split_ifs with h
    · positivity
    · exact le_refl 0
  · simp only [jaccard_similarity]
    split_ifs with h
    · rw [div_le_one (by exact_mod_cast h)]
      exact_mod_cast Finset.card_le_card (Finset.inter_subset_union)
    · norm_num
  · intro h
    simp only [jaccard_similarity, Finset.inter_self, Finset.union_self]
    have hc : 0 < a.toFinset.card := Finset.card_pos.mpr (Finset.nonempty_iff_ne_empty.mpr h)
    rw [if_pos hc]
    exact div_self (by exact_mod_cast hc.ne')
  · intro h
    simp [jaccard_similarity, h]

theorem C5_jaccard_properties_witness :
    jaccard_similarity [str "a"] [str "a"] = 1 ∧
    jaccard_similarity ([] : List (List Char)) [] = 0 :=
  ⟨(C5_jaccard_properties [str "a"] [str "b"]).2.2.2.1 (by decide),
    (C5_jaccard_properties ([] : List (List Char)) []).2.2.2.2 (by decide)⟩

/-! ### Claim C7 — script/style block removal -/

theorem rtb_no_open {tag html : List Char} (h : findSub ('<' :: tag) (toLowerL html) = none) :
    removeTagBlock tag html = html := by
  unfold removeTagBlock
  split
  · rfl
  · rename_i s heq
    rw [h] at heq
    cases heq

theorem rtb_trunc {tag html : List Char} {s : Nat}
    (h : findSub ('<' :: tag) (toLowerL html) = some s)
    (h2 : findSubFrom ('<' :: '/' :: (tag ++ ['>'])) (toLowerL html) s = none) :
    removeTagBlock tag html = html.take s := by
  unfold removeTagBlock
  split
  · rename_i heq
    rw [h] at heq
    cases heq
  · rename_i s' heq
    rw [h] at heq
    injection heq with hss
    subst hss
    split
    · rfl
    · rename_i e heq2
      rw [h2] at heq2
      cases heq2

theorem rtb_step {tag html : List Char} {s e : Nat}
    (h : findSub ('<' :: tag) (toLowerL html) = some s)
    (h2 : findSubFrom ('<' :: '/' :: (tag ++ ['>'])) (toLowerL html) s = some e) :
    removeTagBlock tag html =
      removeTagBlock tag (html.take s ++ ' ' :: html.drop (e + (tag.length + 3))) := by
  conv_lhs => unfold removeTagBlock
  split
  · rename_i heq
    rw [h] at heq
    cases heq
  · rename_i s' heq
    rw [h] at heq
    injection heq with hss
    subst hss
    split
    · rename_i heq2
      rw [h2] at heq2
      cases heq2
    · rename_i e' heq2
      rw [h2] at heq2
      injection heq2 with hee
      subst hee
      rfl

theorem occursAt_of_findSub {needle hay : List Char} {i : Nat}
    (h : findSub needle hay = some i) :
    occursAt needle hay i = true ∧ ∀ k, k < i → occursAt needle hay k = false := by
  induction hay generalizing i with
  | nil =>
    unfold findSub at h
    split at h
    · rename_i hn
      injection h with hi
      subst hi
      subst hn
      exact ⟨rfl, fun k hk => absurd hk (by omega)⟩
    · cases h
  | cons c cs ih =>
    rw [findSub] at h
    split at h
    · rename_i hp
      injection h with hi
      subst hi
      refine ⟨by simpa [occursAt] using hp, fun k hk => absurd hk (by omega)⟩
    · rename_i hp
      cases hfs : findSub needle cs with
      | none => rw [hfs] at h; simp at h
      | some j =>
        rw [hfs] at h
        simp only [Option.map_some'] at h
        injection h with hi
        subst hi
        obtain ⟨ho, hb⟩ := ih hfs
        constructor
        · simpa [occursAt, List.drop_succ_cons] using ho
        · intro k hk
          cases k with
          | zero =>
            simp only [occursAt, List.drop_zero]
            exact Bool.not_eq_true _ ▸ (by simpa using hp)
          | succ k2 =>
            have := hb k2 (by omega)
            simpa [occursAt, List.drop_succ_cons] using this

theorem findSub_of_occursAt {needle hay : List Char} {i : Nat}
    (ho : occursAt needle hay i = true)
    (hmin : ∀ k, k < i → occursAt needle hay k = false) :
    findSub needle hay = some i := by
  induction hay generalizing i with
  | nil =>
    have hn : needle = [] := by
      cases needle with
      | nil => rfl
      | cons a as => simp [occursAt] at ho
    subst hn
    have hi : i = 0 := by
      by_contra hne
      have := hmin 0 (by omega)
      simp [occursAt] at this
    subst hi
    rfl
  | cons c cs ih =>
    cases i with
    | zero =>
      rw [findSub]
      rw [if_pos (by simpa [occursAt] using ho)]
    | succ j =>
      rw [findSub]
      rw [if_neg (by simpa [occursAt] using (Bool.eq_false_iff.mp (hmin 0 (by omega))))]
      have hrec := ih (i := j) (by simpa [occursAt, List.drop_succ_cons] using ho)
        (fun k hk => by simpa [occursAt, List.drop_succ_cons] using hmin (k + 1) (by omega))
      rw [hrec]
      rfl

theorem occursAt_ge_length {pat hay : List Char} {k : Nat} (hne : pat ≠ [])
    (hk : hay.length ≤ k) : occursAt pat hay k = false := by
  unfold occursAt
  rw [List.drop_eq_nil_of_le hk]
  cases pat with
  | nil => exact absurd rfl hne
  | cons a as => rfl

theorem findSub_of_no_occurrence {needle hay : List Char} (hne : needle ≠ [])
    (h : ∀ k, k < hay.length → occursAt needle hay k = false) :
    findSub needle hay = none := by
  cases hfs : findSub needle hay with
  | none => rfl
  | some i =>
    obtain ⟨ho, _⟩ := occursAt_of_findSub hfs
    have hb := findSub_bound hne hfs
    have hlt : i < hay.length := by
      have := List.length_pos.mpr hne
      omega
    rw [h i hlt] at ho
    cases ho

theorem occursAt_drop {pat hay : List Char} {s k : Nat} :
    occursAt pat (hay.drop s) k = occursAt pat hay (s + k) := by
  unfold occursAt
  rw [List.drop_drop]

theorem findSubFrom_of_no_occurrence {needle hay : List Char} {s : Nat} (hne : needle ≠ [])
    (h : ∀ k, s ≤ k → k < hay.length → occursAt needle hay k = false) :
    findSubFrom needle hay s = none := by
  unfold findSubFrom
  rw [findSub_of_no_occurrence hne]
  · rfl
  · intro k hk
    rw [occursAt_drop]
    rcases Nat.lt_or_ge (s + k) hay.length with hlt | hge
    · exact h (s + k) (by omega) hlt
    · exact occursAt_ge_length hne hge

theorem findSubFrom_of_occursAt {needle hay : List Char} {s e : Nat}
    (hse : s ≤ e) (ho : occursAt needle hay e = true)
    (hmin : ∀ k, s ≤ k → k < e → occursAt needle hay k = false) :
    findSubFrom needle hay s = some e := by
  unfold findSubFrom
  have : findSub needle (hay.drop s) = some (e - s) := by
    apply findSub_of_occursAt
    · rw [occursAt_drop]
      have : s + (e - s) = e := by omega
      rw [this]
      exact ho
    · intro k hk
      rw [occursAt_drop]
      exact hmin (s + k) (by omega) (by omega)
  rw [this]
  simp only [Option.map_some']
  congr 1
  omega

/-- C7: block removal of an element locates the first case-insensitive
opening tag `<tag`; when a matching closing tag `</tag>` exists at or after
it, the whole block up to and including the closing tag is erased (replaced
by a single space) and removal continues on the result; when no closing tag
follows, the string is truncated at the opening tag and everything after it
is discarded; a string with no opening tag is returned unchanged. -/
theorem C7_remove_tag_block (html tag : List Char) :
    ((∀ k, k < (toLowerL html).length → occursAt ('<' :: tag) (toLowerL html) k = false) →
      removeTagBlock tag html = html) ∧
    (∀ s, occursAt ('<' :: tag) (toLowerL html) s = true →
      (∀ k, k < s → occursAt ('<' :: tag) (toLowerL html) k = false) →
      ((∀ k, s ≤ k → k < (toLowerL html).length →
          occursAt ('<' :: '/' :: (tag ++ ['>'])) (toLowerL html) k = false) →
        removeTagBlock tag html = html.take s) ∧
      (∀ e, s ≤ e → occursAt ('<' :: '/' :: (tag ++ ['>'])) (toLowerL html) e = true →
        (∀ k, s ≤ k → k < e → occursAt ('<' :: '/' :: (tag ++ ['>'])) (toLowerL html) k = false) →
        removeTagBlock tag html =
          removeTagBlock tag (html.take s ++ ' ' :: html.drop (e + (tag.length + 3))))) := by
  constructor
  · intro h
    exact rtb_no_open (findSub_of_no_occurrence (by simp) h)
  · intro s ho hmin
    have hfind : findSub ('<' :: tag) (toLowerL html) = some s := findSub_of_occursAt ho hmin
    constructor
    · intro hnoclose
      exact rtb_trunc hfind (findSubFrom_of_no_occurrence (by simp) hnoclose)
    · intro e hse hoe hmine
      have hfrom : findSubFrom ('<' :: '/' :: (tag ++ ['>'])) (toLowerL html) s = some e :=
        findSubFrom_of_occursAt hse hoe hmine
      have := rtb_step hfind hfrom
      simpa using this

theorem C7_remove_tag_block_witness :
    removeTagBlock (str "script") (str "no tags") = str "no tags" ∧
    removeTagBlock (str "script") (str "a<SCRIPT>x") = (str "a<SCRIPT>x").take 1 ∧
    removeTagBlock (str "script") (str "a<ScRiPt>x</sCrIpT>b") =
      removeTagBlock (str "script")
        ((str "a<ScRiPt>x</sCrIpT>b").take 1 ++
          ' ' :: (str "a<ScRiPt>x</sCrIpT>b").drop (10 + ((str "script").length + 3))) :=
  ⟨(C7_remove_tag_block (str "no tags") (str "script")).1 (by decide),
    ((C7_remove_tag_block (str "a<SCRIPT>x") (str "script")).2 1 (by decide) (by decide)).1
      (by decide),
    ((C7_remove_tag_block (str "a<ScRiPt>x</sCrIpT>b") (str "script")).2 1 (by decide)
      (by decide)).2 10 (by decide) (by decide) (by decide)⟩

/-! ### Claim C6 — deterministic top-K ranking -/

theorem lookupCount_eq_none_iff {d : List (List Char × Nat)} {k : List Char} :
    lookupCount d k = none ↔ k ∉ d.map Prod.fst := by
  induction d with
  | nil => simp [lookupCount]
  | cons p ps ih =>
    simp only [lookupCount, List.map_cons, List.mem_cons]
    by_cases hp : p.1 = k
    · subst hp
      simp
    · simp only [if_neg hp, ih]
      constructor
      · intro h hmem
        rcases hmem with he | hm
        · exact hp he.symm
        · exact h hm
      · intro h hm
        exact h (Or.inr hm)

theorem increment_count_keys_nodup {d : List (List Char × Nat)} {k : List Char}
    (h : (d.map Prod.fst).Nodup) : ((increment_count d k).map Prod.fst).Nodup := by
  unfold increment_count
  cases hl : lookupCount d k with
  | some c =>
    have hfun : (Prod.fst ∘ fun p : List Char × Nat => if p.1 = k then (p.1, p.2 + 1) else p)
        = Prod.fst := by
      funext p
      by_cases hp : p.1 = k <;> simp [hp]
    rw [List.map_map, hfun]
    exact h
  | none =>
    have hk : k ∉ d.map Prod.fst := lookupCount_eq_none_iff.mp hl
    simp only [List.map_append, List.map_cons, List.map_nil]
    simp [List.nodup_append, h, hk]

theorem incrementAll_keys_nodup {d : List (List Char × Nat)} {ws : List (List Char)}
    (h : (d.map Prod.fst).Nodup) : ((incrementAll d ws).map Prod.fst).Nodup := by
  induction ws generalizing d with
  | nil => exact h
  | cons w ws ih => exact ih (increment_count_keys_nodup h)

theorem foldDocs_freq_nodup (readDoc : List Char → Option (List Char))
    (files : List (List Char)) (acc : DocAcc)
    (h1 : (acc.global_freq.map Prod.fst).Nodup)
    (h2 : (acc.bigram_freq.map Prod.fst).Nodup)
    (h3 : (acc.trigram_freq.map Prod.fst).Nodup) :
    (((files.foldl (stepDoc readDoc) acc).global_freq).map Prod.fst).Nodup ∧
    (((files.foldl (stepDoc readDoc) acc).bigram_freq).map Prod.fst).Nodup ∧
    (((files.foldl (stepDoc readDoc) acc).trigram_freq).map Prod.fst).Nodup := by
  induction files generalizing acc with
  | nil => exact ⟨h1, h2, h3⟩
  | cons f fs ih =>
    cases hrd : readDoc f with
    | none =>
      simp only [List.foldl_cons, stepDoc, hrd]
      exact ih acc h1 h2 h3
    | some text =>
      simp only [List.foldl_cons, stepDoc, hrd]
      exact ih _ (incrementAll_keys_nodup h1) (incrementAll_keys_nodup h2)
        (incrementAll_keys_nodup h3)

/-- The strict form of the ranking order on the first `k` ranked items, given
distinct keys. -/
theorem rankSort_take_strict_pairwise (items : List (List Char × Nat)) (k : Nat)
    (h : (items.map Prod.fst).Nodup) :
    ((rankSort items).take k).Pairwise
      (fun x y : List Char × Nat => y.2 < x.2 ∨ (x.2 = y.2 ∧ lexLt x.1 y.1 = true)) := by
  have hs : (rankSort items).Pairwise RankLE := List.sorted_insertionSort RankLE items
  have hperm : List.Perm ((rankSort items).map Prod.fst) (items.map Prod.fst) :=
    (List.perm_insertionSort RankLE items).map Prod.fst
  have hnd : ((rankSort items).map Prod.fst).Nodup := (hperm.nodup_iff).mpr h
  have hnd2 : (rankSort items).Pairwise (fun x y : List Char × Nat => x.1 ≠ y.1) :=
    List.pairwise_map.mp hnd
  have hcomb := hs.and hnd2
  have htake := List.Pairwise.sublist (List.take_sublist k (rankSort items)) hcomb
  refine htake.imp ?_
  intro a b hab
  obtain ⟨hle, hne⟩ := hab
  rw [RankLE, rankLE_iff] at hle
  rcases hle with h1 | ⟨h2, h3⟩
  · left; exact h1
  · right; exact ⟨h2, lexLt_of_lexLe_of_ne h3 hne⟩

/-- C6: the ranked lists of the report are deterministic: sorted by strictly
descending frequency with ties broken by strictly ascending lexicographic
order of the term, and truncated to the first 100 (words) respectively 50
(bigrams, trigrams) entries; the word list's length is exactly
`min 100 unique_words`. -/
theorem C6_ranking_deterministic (files : List (List Char))
    (readDoc : List Char → Option (List Char)) :
    (analyzeCore files readDoc).top_100_words.Pairwise
      (fun a b : WordEntry => b.count < a.count ∨
        (a.count = b.count ∧ lexLt a.word b.word = true)) ∧
    (analyzeCore files readDoc).top_100_words.length =
      min 100 (analyzeCore files readDoc).unique_words ∧
    (analyzeCore files readDoc).top_bigrams.Pairwise
      (fun a b : NgramEntry => b.count < a.count ∨
        (a.count = b.count ∧ lexLt a.gram b.gram = true)) ∧
    (analyzeCore files readDoc).top_bigrams.length ≤ 50 ∧
    (analyzeCore files readDoc).top_trigrams.Pairwise
      (fun a b : NgramEntry => b.count < a.count ∨
        (a.count = b.count ∧ lexLt a.gram b.gram = true)) ∧
    (analyzeCore files readDoc).top_trigrams.length ≤ 50 := by
  obtain ⟨hg, hb, ht⟩ := foldDocs_freq_nodup readDoc files initAcc (by simp [initAcc])
    (by simp [initAcc]) (by simp [initAcc])
  refine ⟨?_, ?_, ?_, ?_, ?_, ?_⟩
  · have := rankSort_take_strict_pairwise _ 100 hg
    simp only [analyzeCore, topWordEntries]
    rw [List.pairwise_map]
    exact this
  · simp only [analyzeCore, topWordEntries]
    rw [List.length_map, List.length_take]
    have hlen : (rankSort ((files.foldl (stepDoc readDoc) initAcc).global_freq)).length =
        ((files.foldl (stepDoc readDoc) initAcc).global_freq).length :=
      (List.perm_insertionSort RankLE _).length_eq
    rw [hlen]
  · have := rankSort_take_strict_pairwise _ 50 hb
    simp only [analyzeCore, topNgramEntries]
    rw [List.pairwise_map]
    exact this
  · simp only [analyzeCore, topNgramEntries]
    rw [List.length_map, List.length_take]
    omega
  · have := rankSort_take_strict_pairwise _ 50 ht
    simp only [analyzeCore, topNgramEntries]
    rw [List.pairwise_map]
    exact this
  · simp only [analyzeCore, topNgramEntries]
    rw [List.length_map, List.length_take]
    omega

/-! ### Claim C1 — what the top-100 word entries record -/

theorem lookupCount_map_bump (d : List (List Char × Nat)) (v w : List Char) :
    lookupCount (d.map (fun p => if p.1 = v then (p.1, p.2 + 1) else p)) w =
      if w = v then (lookupCount d w).map (· + 1) else lookupCount d w := by
  induction d with
  | nil => simp [lookupCount]
  | cons p ps ih =>
    obtain ⟨a, b⟩ := p
    simp only [List.map_cons]
    by_cases hav : a = v
    · subst hav
      by_cases haw : a = w
      · subst haw
        simp [lookupCount]
      · have hwv : ¬ w = a := fun h => haw h.symm
        simp [lookupCount, haw, hwv, ih]
    · by_cases haw : a = w
      · subst haw
        simp [lookupCount, hav]
      · simp [lookupCount, hav, haw, ih]

theorem lookupCount_append_single (d : List (List Char × Nat)) (v w : List Char) :
    lookupCount (d ++ [(v, 1)]) w =
      match lookupCount d w with
      | some c => some c
      | none => if v = w then some 1 else none := by
  induction d with
  | nil => simp [lookupCount]
  | cons p ps ih =>
    by_cases hpw : p.1 = w
    · simp [lookupCount, hpw]
    · simp only [List.cons_append, lookupCount, hpw, if_false]
      exact ih

theorem lookupCount_increment (d : List (List Char × Nat)) (v w : List Char) :
    (lookupCount (increment_count d v) w).getD 0 =
      (lookupCount d w).getD 0 + (if w = v then 1 else 0) := by
  unfold increment_count
  cases hl : lookupCount d v with
  | some c =>
    rw [lookupCount_map_bump]
    by_cases hwv : w = v
    · subst hwv
      rw [if_pos rfl, if_pos rfl, hl]
      rfl
    · rw [if_neg hwv, if_neg hwv]
      omega
  | none =>
    rw [lookupCount_append_single]
    by_cases hwv : w = v
    · subst hwv
      rw [hl]
      simp
    · cases hd : lookupCount d w with
      | some c => simp [hd, hwv]
      | none =>
        have : ¬ v = w := fun h => hwv h.symm
        simp [hd, this, hwv]

theorem lookupCount_incrementAll (d : List (List Char × Nat)) (ws : List (List Char))
    (w : List Char) :
    (lookupCount (incrementAll d ws) w).getD 0 =
      (lookupCount d w).getD 0 + ws.count w := by
  induction ws generalizing d with
  | nil => simp [incrementAll]
  | cons v vs ih =>
    have hstep : incrementAll d (v :: vs) = incrementAll (increment_count d v) vs := rfl
    rw [hstep, ih, lookupCount_increment]
    by_cases hwv : w = v
    · subst hwv
      simp only [List.count_cons, beq_self_eq_true, if_pos, if_true]
      omega
    · have hvw : ¬ v = w := fun h => hwv h.symm
      have hbeq : (v == w) = false := by simp [hvw]
      simp [List.count_cons, hbeq, hwv]

theorem foldDocs_count_inv (readDoc : List Char → Option (List Char))
    (files : List (List Char)) (acc : DocAcc)
    (h : ∀ w, (lookupCount acc.global_freq w).getD 0 = acc.all_words.count w) :
    ∀ w, (lookupCount ((files.foldl (stepDoc readDoc) acc).global_freq) w).getD 0 =
      ((files.foldl (stepDoc readDoc) acc).all_words).count w := by
  induction files generalizing acc with
  | nil => exact h
  | cons f fs ih =>
    cases hrd : readDoc f with
    | none =>
      simp only [List.foldl_cons, stepDoc, hrd]
      exact ih acc h
    | some text =>
      simp only [List.foldl_cons, stepDoc, hrd]
      apply ih
      intro w
      simp only []
      rw [lookupCount_incrementAll, h w, List.count_append]

theorem lookupCount_of_mem {d : List (List Char × Nat)} {w : List Char} {c : Nat}
    (hnd : (d.map Prod.fst).Nodup) (hm : (w, c) ∈ d) :
    lookupCount d w = some c := by
  induction d with
  | nil => cases hm
  | cons p ps ih =>
    rcases List.mem_cons.mp hm with rfl | hm2
    · simp [lookupCount]
    · have hp : p.1 ≠ w := by
        intro he
        have : w ∈ ps.map Prod.fst := List.mem_map.mpr ⟨(w, c), hm2, rfl⟩
        rw [List.map_cons] at hnd
        exact (List.nodup_cons.mp hnd).1 (he ▸ this)
      rw [lookupCount, if_neg hp]
      exact ih (List.nodup_cons.mp (List.map_cons _ _ _ ▸ hnd)).2 hm2

/-- The document frequency of a word as the spec defines it — "the number of
distinct documents the word appears in" — stated over the same inputs as the
embedded analyze batch.  This follows the spec's words, for comparison with
the code's report; `analyze.py` computes no such quantity. -/
def specDocumentFrequency (files : List (List Char))
    (readDoc : List Char → Option (List Char)) (w : List Char) : Nat :=
  (files.filter (fun f =>
    match readDoc f with
    | some text => (tokenize_words_lower text).contains w
    | none => false)).length

/-- A concrete one-document corpus: the single document reads as `"a a b"`. -/
def rdC1 : List Char → Option (List Char) := fun _ => some (str "a a b")

theorem c1_top_words_concrete :
    (analyzeCore [str "d1.json"] rdC1).top_100_words =
      [⟨str "a", 2, 2/3⟩, ⟨str "b", 1, 1/3⟩] := by
  have hg : ([str "d1.json"].foldl (stepDoc rdC1) initAcc).global_freq =
      [(str "a", 2), (str "b", 1)] := by decide
  have ht : ([str "d1.json"].foldl (stepDoc rdC1) initAcc).total_words = 3 := by decide
  have hr : rankSort [(str "a", 2), (str "b", 1)] = [(str "a", 2), (str "b", 1)] := by decide
  show topWordEntries ([str "d1.json"].foldl (stepDoc rdC1) initAcc).global_freq
      ([str "d1.json"].foldl (stepDoc rdC1) initAcc).total_words = _
  rw [hg, ht, topWordEntries, hr]
  norm_num [List.take]

/-- C1 counterexample: on a one-document corpus with text `"a a b"`, the
report's entry for `"a"` is `{word := "a", count := 2, frequency := 2/3}`;
the document frequency of `"a"` (and of `"b"`) is 1, which equals neither
recorded number, so the entry does not record the document frequency. -/
theorem C1_counterexample_top_words :
    (analyzeCore [str "d1.json"] rdC1).top_100_words =
      [⟨str "a", 2, 2/3⟩, ⟨str "b", 1, 1/3⟩] ∧
    specDocumentFrequency [str "d1.json"] rdC1 (str "a") = 1 ∧
    specDocumentFrequency [str "d1.json"] rdC1 (str "b") = 1 ∧
    ((2 : ℚ)/3 ≠ (1 : ℚ)) ∧ ((1 : ℚ)/3 ≠ (1 : ℚ)) ∧ ((2 : Nat) ≠ 1) :=
  ⟨c1_top_words_concrete, by decide, by decide, by norm_num, by norm_num, by norm_num⟩

/-- C1 amended: each entry of the report's top-100 word list records the word,
its raw occurrence count across the corpus (the number of occurrences of the
word in the concatenated token streams of the processed documents), and its
relative frequency `count / total_words` (0 when the corpus is empty) — not
its document frequency. -/
theorem C1_amended_top_words (files : List (List Char))
    (readDoc : List Char → Option (List Char)) :
    ∀ e ∈ (analyzeCore files readDoc).top_100_words,
      e.frequency = (if 0 < (analyzeCore files readDoc).total_words then
          (e.count : ℚ) / ((analyzeCore files readDoc).total_words : ℚ) else 0) ∧
      ((files.foldl (stepDoc readDoc) initAcc).all_words).count e.word = e.count := by
  intro e he
  simp only [analyzeCore, topWordEntries, List.mem_map] at he
  obtain ⟨it, hit, rfl⟩ := he
  have hmem : it ∈ (files.foldl (stepDoc readDoc) initAcc).global_freq := by
    have h1 : it ∈ rankSort ((files.foldl (stepDoc readDoc) initAcc).global_freq) :=
      (List.take_sublist _ _).mem hit
    exact ((List.perm_insertionSort RankLE _).mem_iff).mp h1
  constructor
  · rfl
  · obtain ⟨hnd, _, _⟩ := foldDocs_freq_nodup readDoc files initAcc (by simp [initAcc])
      (by simp [initAcc]) (by simp [initAcc])
    have hl : lookupCount ((files.foldl (stepDoc readDoc) initAcc).global_freq) it.1 =
        some it.2 := lookupCount_of_mem hnd (by simpa using hmem)
    have hc := foldDocs_count_inv readDoc files initAcc (by intro w; simp [initAcc, lookupCount])
      it.1
    rw [hl] at hc
    exact hc.symm

theorem C1_amended_top_words_witness :
    ((⟨str "a", 2, 2/3⟩ : WordEntry) ∈ (analyzeCore [str "d1.json"] rdC1).top_100_words) ∧
    ((⟨str "a", 2, 2/3⟩ : WordEntry).frequency =
      (if 0 < (analyzeCore [str "d1.json"] rdC1).total_words then
        ((⟨str "a", 2, 2/3⟩ : WordEntry).count : ℚ) /
          ((analyzeCore [str "d1.json"] rdC1).total_words : ℚ) else 0) ∧
      (([str "d1.json"].foldl (stepDoc rdC1) initAcc).all_words).count
        (⟨str "a", 2, 2/3⟩ : WordEntry).word = (⟨str "a", 2, 2/3⟩ : WordEntry).count) :=
  have hm : (⟨str "a", 2, 2/3⟩ : WordEntry) ∈ (analyzeCore [str "d1.json"] rdC1).top_100_words :=
    by rw [c1_top_words_concrete]; exact List.mem_cons_self _ _
  ⟨hm, C1_amended_top_words [str "d1.json"] rdC1 _ hm⟩

/-! ### Claim C10 — unreadable documents are silently skipped -/

theorem foldDocs_skip (readDoc : List Char → Option (List Char)) (files : List (List Char))
    (acc : DocAcc) :
    files.foldl (stepDoc readDoc) acc =
      (files.filter (fun f => (readDoc f).isSome)).foldl (stepDoc readDoc) acc := by
  induction files generalizing acc with
  | nil => rfl
  | cons f fs ih =>
    cases hrd : readDoc f with
    | none =>
      have hstep : stepDoc readDoc acc f = acc := by simp [stepDoc, hrd]
      simp only [List.foldl_cons, List.filter_cons, hrd, Option.isSome_none, hstep]
      exact ih acc
    | some t =>
      simp only [List.foldl_cons, List.filter_cons, hrd, Option.isSome_some]
      exact ih _

theorem foldDocs_docs (readDoc : List Char → Option (List Char)) (files : List (List Char))
    (acc : DocAcc) :
    (files.foldl (stepDoc readDoc) acc).docs =
      acc.docs ++ files.filterMap
        (fun f => (readDoc f).map (fun t => (f, tokenize_words_lower t))) := by
  induction files generalizing acc with
  | nil => simp
  | cons f fs ih =>
    cases hrd : readDoc f with
    | none =>
      have hstep : stepDoc readDoc acc f = acc := by simp [stepDoc, hrd]
      simp only [List.foldl_cons, List.filterMap_cons, hrd, Option.map_none', hstep]
      exact ih acc
    | some t =>
      simp only [List.foldl_cons, List.filterMap_cons, hrd, Option.map_some']
      rw [ih]
      simp [stepDoc, hrd]

theorem filterMap_names (readDoc : List Char → Option (List Char)) (files : List (List Char)) :
    (files.filterMap
        (fun f => (readDoc f).map (fun t => (f, tokenize_words_lower t)))).map Prod.fst =
      files.filter (fun f => (readDoc f).isSome) := by
  induction files with
  | nil => rfl
  | cons f fs ih =>
    cases hrd : readDoc f with
    | none => simp [List.filterMap_cons, List.filter_cons, hrd, ih]
    | some t => simp [List.filterMap_cons, List.filter_cons, hrd, ih]

theorem simPairs_mem_names (docs : List (List Char × List (List Char))) :
    ∀ p ∈ simPairs docs, p.doc1 ∈ docs.map Prod.fst ∧ p.doc2 ∈ docs.map Prod.fst := by
  induction docs with
  | nil => intro p hp; cases hp
  | cons d ds ih =>
    intro p hp
    simp only [simPairs, List.mem_append, List.mem_map] at hp
    rcases hp with ⟨e, he, rfl⟩ | hp
    · constructor
      · simp
      · simp only [List.map_cons, List.mem_cons]
        right
        exact List.mem_map.mpr ⟨e, he, rfl⟩
    · obtain ⟨h1, h2⟩ := ih p hp
      exact ⟨by simp [h1], by simp [h2]⟩

/-- C10: a structured-document file whose read or JSON parse fails is
silently skipped by the analyze batch: the whole report is identical to the
report over only the readable files, the skipped file is not counted in
`documents_processed`, appears in no similarity pair, and the report carries
no failure entry (its `error` field is absent). -/
theorem C10_analyze_silently_skips (files : List (List Char))
    (readDoc : List Char → Option (List Char)) :
    analyzeCore files readDoc =
      analyzeCore (files.filter (fun f => (readDoc f).isSome)) readDoc ∧
    (analyzeCore files readDoc).documents_processed =
      (files.filter (fun f => (readDoc f).isSome)).length ∧
    ((analyzeCore files readDoc).document_similarity.all (fun p =>
      (files.filter (fun f => (readDoc f).isSome)).contains p.doc1 &&
      (files.filter (fun f => (readDoc f).isSome)).contains p.doc2)) = true ∧
    (analyzeCore files readDoc).error = none := by
  refine ⟨?_, ?_, ?_, ?_⟩
  · unfold analyzeCore
    rw [foldDocs_skip]
  · show (files.foldl (stepDoc readDoc) initAcc).docs.length = _
    rw [foldDocs_docs]
    have := congrArg List.length (filterMap_names readDoc files)
    simpa [initAcc] using this
  · rw [List.all_eq_true]
    intro p hp
    have hmem : p ∈ simPairs ((files.foldl (stepDoc readDoc) initAcc).docs) := hp
    obtain ⟨h1, h2⟩ := simPairs_mem_names _ p hmem
    rw [foldDocs_docs] at h1 h2
    simp only [initAcc, List.nil_append] at h1 h2
    rw [filterMap_names] at h1 h2
    simp [h1, h2]
  · rfl

/-! ### Claim C8 — markup stripping on tag-free text -/

theorem toLower_ne_angle {c : Char} (h : c ≠ '<') : c.toLower ≠ '<' := by
  simp only [Char.toLower]
  split_ifs with hn
  · obtain ⟨h1, h2⟩ := hn
    generalize c.toNat = n at h1 h2 ⊢
    interval_cases n <;> decide
  · exact h

theorem no_angle_toLowerL {s : List Char} (h : '<' ∉ s) : '<' ∉ toLowerL s := by
  intro hmem
  obtain ⟨c, hc, he⟩ := List.mem_map.mp hmem
  by_cases hcc : c = '<'
  · exact h (hcc ▸ hc)
  · exact toLower_ne_angle hcc he

theorem findSub_angle_none {tag hay : List Char} (h : '<' ∉ hay) :
    findSub ('<' :: tag) hay = none := by
  induction hay with
  | nil => rfl
  | cons c cs ih =>
    have hc : c ≠ '<' := fun he => h (he ▸ List.mem_cons_self c cs)
    rw [findSub, if_neg ?_]
    · rw [ih (fun hm => h (List.mem_cons_of_mem c hm))]
      rfl
    · intro hp
      simp only [List.isPrefixOf, Bool.and_eq_true, beq_iff_eq] at hp
      exact hc hp.1.symm

theorem rtb_id_of_no_angle {tag html : List Char} (h : '<' ∉ html) :
    removeTagBlock tag html = html :=
  rtb_no_open (findSub_angle_none (no_angle_toLowerL h))

theorem tagSubFuel_id {l : List Char} (h : '<' ∉ l) : ∀ fuel, tagSubFuel fuel l = l := by
  induction l with
  | nil => intro fuel; cases fuel <;> rfl
  | cons c cs ih =>
    intro fuel
    cases fuel with
    | zero => rfl
    | succ f =>
      have hc : ¬ c = '<' := fun he => h (he ▸ List.mem_cons_self c cs)
      simp only [tagSubFuel, if_neg hc]
      rw [ih (fun hm => h (List.mem_cons_of_mem c hm)) f]

theorem tagSub_id {l : List Char} (h : '<' ∉ l) : tagSub l = l := tagSubFuel_id h l.length

/-- No two adjacent whitespace characters. -/
def wsR (c d : Char) : Prop := ¬(c.isWhitespace = true ∧ d.isWhitespace = true)

/-- Every whitespace character of the list is a plain space. -/
def allSp (l : List Char) : Prop := ∀ c ∈ l, c.isWhitespace = true → c = ' '

/-- The list does not start with whitespace. -/
def headNotWs (l : List Char) : Prop := ∀ c, l.head? = some c → c.isWhitespace = false

theorem cw_head (l : List Char) : headNotWs (collapseWsAux l true) := by
  induction l with
  | nil => intro c hc; cases hc
  | cons c cs ih =>
    by_cases hws : c.isWhitespace = true
    · simpa [collapseWsAux, hws] using ih
    · intro d hd
      simp only [collapseWsAux, hws, if_false, List.head?_cons] at hd
      injection hd with hd
      subst hd
      simpa using hws

theorem cw_spec (l : List Char) :
    ∀ b, List.Chain' wsR (collapseWsAux l b) ∧ allSp (collapseWsAux l b) := by
  induction l with
  | nil =>
    intro b
    exact ⟨List.chain'_nil, fun c hc => absurd hc (List.not_mem_nil c)⟩
  | cons c cs ih =>
    intro b
    by_cases hws : c.isWhitespace = true
    · cases b with
      | true => simpa [collapseWsAux, hws] using ih true
      | false =>
        obtain ⟨ihc, ihs⟩ := ih true
        simp only [collapseWsAux, hws, if_true, Bool.false_eq_true, if_false]
        constructor
        · rw [List.chain'_cons']
          refine ⟨?_, ihc⟩
          intro y hy
          have hyn := cw_head cs y hy
          intro hand
          rw [hyn] at hand
          exact Bool.false_ne_true hand.2
        · intro d hd hdws
          rcases List.mem_cons.mp hd with rfl | hd2
          · rfl
          · exact ihs d hd2 hdws
    · obtain ⟨ihc, ihs⟩ := ih false
      have hunf : collapseWsAux (c :: cs) b = c :: collapseWsAux cs false := by
        simp [collapseWsAux, hws]
      rw [hunf]
      constructor
      · rw [List.chain'_cons']
        refine ⟨?_, ihc⟩
        intro y _
        intro hand
        exact hws hand.1
      · intro d hd hdws
        rcases List.mem_cons.mp hd with rfl | hd2
        · exact absurd hdws hws
        · exact ihs d hd2 hdws

theorem cw_mem {l : List Char} : ∀ {b : Bool} {c : Char}, c ∈ collapseWsAux l b →
    c ∈ l ∨ c = ' ' := by
  induction l with
  | nil =>
    intro b c h
    simp [collapseWsAux] at h
  | cons d ds ih =>
    intro b c h
    by_cases hws : d.isWhitespace = true
    · cases b with
      | true =>
        simp only [collapseWsAux, hws, if_true] at h
        rcases ih h with h3 | h3
        · exact Or.inl (List.mem_cons_of_mem d h3)
        · exact Or.inr h3
      | false =>
        simp only [collapseWsAux, hws, if_true] at h
        rcases List.mem_cons.mp h with rfl | h2
        · exact Or.inr rfl
        · rcases ih h2 with h3 | h3
          · exact Or.inl (List.mem_cons_of_mem d h3)
          · exact Or.inr h3
    · simp only [collapseWsAux, hws, if_false] at h
      rcases List.mem_cons.mp h with rfl | h2
      · exact Or.inl (List.mem_cons_self _ _)
      · rcases ih h2 with h3 | h3
        · exact Or.inl (List.mem_cons_of_mem d h3)
        · exact Or.inr h3

theorem cw_fix : ∀ {l : List Char}, List.Chain' wsR l → allSp l →
    collapseWsAux l false = l ∧ (headNotWs l → collapseWsAux l true = l) := by
  intro l
  induction l with
  | nil => exact fun _ _ => ⟨rfl, fun _ => rfl⟩
  | cons c cs ih =>
    intro hch hall
    obtain ⟨hhead, htail⟩ := List.chain'_cons'.mp hch
    have hallcs : allSp cs := fun d hd => hall d (List.mem_cons_of_mem c hd)
    obtain ⟨ihf, iht⟩ := ih htail hallcs
    constructor
    · by_cases hws : c.isWhitespace = true
      · have hcsp : c = ' ' := hall c (List.mem_cons_self c cs) hws
        simp only [collapseWsAux, hws, if_true]
        have hhn : headNotWs cs := by
          intro y hy
          have hr := hhead y hy
          by_contra hyw
          exact hr ⟨hws, by simpa using hyw⟩
        rw [iht hhn, hcsp]
        simp
      · have hunf : collapseWsAux (c :: cs) false = c :: collapseWsAux cs false := by
          simp [collapseWsAux, hws]
        rw [hunf, ihf]
    · intro hheadl
      have hws : c.isWhitespace = false := hheadl c rfl
      have hunf : collapseWsAux (c :: cs) true = c :: collapseWsAux cs false := by
        simp [collapseWsAux, hws]
      rw [hunf, ihf]

theorem head?_dropWhile {p : Char → Bool} {l : List Char} {c : Char}
    (h : (l.dropWhile p).head? = some c) : p c = false := by
  induction l with
  | nil => cases h
  | cons d ds ih =>
    rw [List.dropWhile_cons] at h
    split_ifs at h with hd
    · exact ih h
    · rw [List.head?_cons] at h
      injection h with h
      subst h
      simpa using hd

theorem dropWhile_id_of_head {p : Char → Bool} {l : List Char}
    (h : ∀ c, l.head? = some c → p c = false) : l.dropWhile p = l := by
  cases l with
  | nil => rfl
  | cons c cs =>
    rw [List.dropWhile_cons, if_neg]
    simp [h c rfl]

theorem chain'_dropWhile {R : Char → Char → Prop} {p : Char → Bool} {l : List Char}
    (h : List.Chain' R l) : List.Chain' R (l.dropWhile p) := by
  induction l with
  | nil => exact h
  | cons c cs ih =>
    rw [List.dropWhile_cons]
    split_ifs with hc
    · exact ih h.tail
    · exact h

theorem chain'_wsR_reverse {l : List Char} (h : List.Chain' wsR l) :
    List.Chain' wsR l.reverse := by
  rw [List.chain'_reverse]
  exact h.imp (fun a b hab hand => hab ⟨hand.2, hand.1⟩)


theorem mem_pyStrip {l : List Char} {c : Char} (h : c ∈ pyStrip l) : c ∈ l := by
  unfold pyStrip trimL at h
  rw [List.mem_reverse] at h
  have h2 := (List.dropWhile_sublist Char.isWhitespace).subset h
  rw [List.mem_reverse] at h2
  exact (List.dropWhile_sublist Char.isWhitespace).subset h2

theorem chain'_pyStrip {l : List Char} (h : List.Chain' wsR l) :
    List.Chain' wsR (pyStrip l) := by
  unfold pyStrip trimL
  exact chain'_wsR_reverse (chain'_dropWhile (chain'_wsR_reverse (chain'_dropWhile h)))

theorem allSp_pyStrip {l : List Char} (h : allSp l) : allSp (pyStrip l) :=
  fun c hc hws => h c (mem_pyStrip hc) hws

theorem lastNotWs_pyStrip (l : List Char) : headNotWs (pyStrip l).reverse := by
  unfold pyStrip
  rw [List.reverse_reverse]
  intro c hc
  exact head?_dropWhile hc

theorem headNotWs_pyStrip (l : List Char) : headNotWs (pyStrip l) := by
  have hpre : pyStrip l <+: trimL l := by
    have h1 : (trimL l).reverse.dropWhile Char.isWhitespace <:+ (trimL l).reverse :=
      List.dropWhile_suffix _
    have h2 := List.reverse_prefix.mpr h1
    rw [List.reverse_reverse] at h2
    exact h2
  intro c hc
  obtain ⟨t, ht⟩ := hpre
  cases hps : pyStrip l with
  | nil => rw [hps] at hc; cases hc
  | cons d ds =>
    rw [hps] at hc ht
    rw [List.head?_cons] at hc
    injection hc with hdc
    have hhead : (trimL l).head? = some d := by
      rw [← ht]
      rfl
    unfold trimL at hhead
    rw [← hdc]
    exact head?_dropWhile hhead

theorem pyStrip_fix {l : List Char} (hh : headNotWs l) (hl : headNotWs l.reverse) :
    pyStrip l = l := by
  unfold pyStrip trimL
  rw [dropWhile_id_of_head hh, dropWhile_id_of_head hl]
  exact List.reverse_reverse l

/-- C8: on input containing no markup (no `<` character), the stripping
pipeline returns the text unchanged except for collapsing whitespace runs to
single spaces and trimming, and applying it twice gives the same result as
applying it once. -/
theorem C8_strip_plain_text (html : List Char) (h : '<' ∉ html) :
    strip_html_text html = pyStrip (collapseWs html) ∧
    strip_html_text (strip_html_text html) = strip_html_text html := by
  have hid : strip_html_text html = pyStrip (collapseWs html) := by
    unfold strip_html_text
    rw [rtb_id_of_no_angle h, rtb_id_of_no_angle h, tagSub_id h]
  refine ⟨hid, ?_⟩
  rw [hid]
  have hct_noangle : '<' ∉ pyStrip (collapseWs html) := by
    intro hc
    rcases cw_mem (mem_pyStrip hc) with h3 | h3
    · exact h h3
    · exact absurd h3 (by decide)
  have hstrip2 : strip_html_text (pyStrip (collapseWs html)) =
      pyStrip (collapseWs (pyStrip (collapseWs html))) := by
    unfold strip_html_text
    rw [rtb_id_of_no_angle hct_noangle, rtb_id_of_no_angle hct_noangle, tagSub_id hct_noangle]
  rw [hstrip2]
  obtain ⟨hch, hsp⟩ := cw_spec html false
  have hcw : collapseWs (pyStrip (collapseWs html)) = pyStrip (collapseWs html) :=
    (cw_fix (chain'_pyStrip hch) (allSp_pyStrip hsp)).1
  rw [hcw]
  rw [pyStrip_fix (headNotWs_pyStrip _) (lastNotWs_pyStrip _)]

theorem C8_strip_plain_text_witness :
    '<' ∉ str "  hello   world " ∧
    (strip_html_text (str "  hello   world ") = pyStrip (collapseWs (str "  hello   world ")) ∧
      strip_html_text (strip_html_text (str "  hello   world ")) =
        strip_html_text (str "  hello   world ")) :=
  ⟨by decide, C8_strip_plain_text (str "  hello   world ") (by decide)⟩
